import Mathlib

/-!
# Verification of the wafo signal-analysis core (`src/misc.py`)

Shallow embedding of the turning-point / level-crossing / rainflow /
outlier-flagging functions of `wafo.misc`, with real samples modelled as
rationals (`ℚ`) and NaN-able samples as `Option ℚ`.  Python exceptions are
modelled with `Except String`; the non-fatal `warnings.warn` channel is
modelled as a returned `Bool` flag where a claim observes it.

The compiled helpers `wafo.numba_misc.findcross` and
`wafo.numba_misc.findrfc` (and the optional `c_library` equivalents) are not
part of the repository sources under `src/`; those two scans are modelled
from the specification text (see the doc comments marked
`Modelled from the spec:`).  Everything else is translated directly from
`src/misc.py`.
-/

namespace Wafo

/-- `np.sign` on a rational, as the integer -1, 0 or 1
(`src/misc.py:1035` builds `xn = int8(sign(x - v))`). -/
def signZ (q : ℚ) : Int :=
  if q < 0 then -1 else if 0 < q then 1 else 0

/-- Carried-sign sequence: each entry equals the sign at that sample, except
that a zero sign (a sample exactly at the level) inherits the nearest
preceding non-zero sign.  `carried c s` threads the incoming carry `c`.

Modelled from the spec: this is the scan of `numba_misc.findcross`
(not present under `src/`), per spec §4.1: "a sample exactly equal to `v`
inherits the sign of the nearest preceding non-zero sample". -/
def carried (c : Int) : List Int → List Int
  | [] => []
  | s :: rest =>
      let c' := if s = 0 then c else s
      c' :: carried c' rest

/-- Modelled from the spec: the raw crossing scan of `numba_misc.findcross`
(missing from `src/`), spec §4.1: "scan consecutive pairs and record index
`i` whenever `s[i]` and the next non-zero-carried sign differ".  Index `i` is
recorded when the carried sign changes between positions `i` and `i+1`. -/
def findcrossRaw (xn : List Int) : List ℕ :=
  let cs := carried 0 xn
  (List.range (xn.length - 1)).filter (fun i => cs.getD i 0 ≠ cs.getD (i + 1) 0)

/-- Element of an integer list at `i`, defaulting to 0 (numpy indexing in
`findcross` is only performed at in-range positions). -/
def xnAt (xn : List Int) (i : ℕ) : Int := xn.getD i 0

/-- Every-other-element slice `l[0::2]`. -/
def everyOther : List α → List α
  | [] => []
  | [a] => [a]
  | a :: _ :: rest => a :: everyOther rest

/-- The recognized `kind` strings of `findcross` as checked at
`src/misc.py:1041-1066`: `None`, `'du'`, `'all'` pass crossings through;
`'d'`, `'u'` and the wave kinds filter; anything else raises. -/
def crossKindKnown (kind : Option String) : Bool :=
  kind = none || kind = some "du" || kind = some "all" || kind = some "d" ||
  kind = some "u" || kind = some "dw" || kind = some "uw" ||
  kind = some "tw" || kind = some "cw"

/-- `findcross(x, v, kind)` from `src/misc.py:977-1067`.  Computes the sign
vector, runs the raw scan, returns early (with only a warning) when no
crossing exists, then filters by `kind`; an unrecognized `kind` raises
`ValueError`. -/
def findcross (x : List ℚ) (v : ℚ) (kind : Option String) :
    Except String (List ℕ) :=
  let xn := x.map (fun a => signZ (a - v))
  let ind := findcrossRaw xn
  if ind.isEmpty then .ok ind
  else if kind = none ∨ kind = some "du" ∨ kind = some "all" then .ok ind
  else if kind = some "d" then
    let t0 : ℕ := if 0 < xnAt xn (ind.headD 0 + 1) then 1 else 0
    .ok (everyOther (ind.drop t0))
  else if kind = some "u" then
    let t0 : ℕ := if xnAt xn (ind.headD 0 + 1) < 0 then 1 else 0
    .ok (everyOther (ind.drop t0))
  else if kind = some "dw" ∨ kind = some "uw" ∨ kind = some "tw" ∨
          kind = some "cw" then
    let firstIsDown := xnAt xn (ind.headD 0 + 1) < xnAt xn (ind.headD 0)
    let wantDown := kind = some "dw" ∨ kind = some "tw"
    let ind1 := if xor firstIsDown (decide wantDown) then ind.drop 1 else ind
    let isOdd := ind1.length % 2 = 1
    let wantOdd := kind = some "dw" ∨ kind = some "uw"
    let ind2 := if xor (decide isOdd) (decide wantOdd) then ind1.dropLast
                else ind1
    .ok ind2
  else .error "Unknown wave/crossing definition!"

/-- First difference `d[i] = x[i+1] - x[i]` (`np.diff`). -/
def diffQ (x : List ℚ) : List ℚ := List.zipWith (fun b a => b - a) (x.drop 1) x

/-- `findextrema(x)` from `src/misc.py:1070-1102`: level-0 crossings of the
first difference, each shifted by `+1`.  The `kind=None` call never raises,
so the `Except` wrapper is discharged with an (unreachable) empty default. -/
def findextrema (x : List ℚ) : List ℕ :=
  (((findcross (diffQ x) 0 none).toOption).getD []).map (· + 1)

/-- One rainflow scan step, before pushing the new point with value `p`.
While the two most recent pending ranges satisfy `r1 ≤ r2`, a cycle closes
between the two points bounding `r1`: they leave the pending stack, and they
are appended to the output exactly when the closed range reaches the
threshold (`method 0` removes ranges `< h`, `method 1` removes ranges `≤ h`,
per the `rfcfilter` docstring at `src/misc.py:1315-1317`).

Modelled from the spec: the core scan of `numba_misc.findrfc` is not under
`src/`; this follows spec §4.4 ("maintain a growable stack of pending point
indices ... if `r1 ≤ r2` ... a cycle is closed between the two points
bounding `r1` ... If `r1 > r2`, push the new point").  The stack is kept
top-first. -/
def rfcStep (m : ℕ) (h : ℚ) (p : ℚ) :
    List (ℕ × ℚ) → List ℕ → List (ℕ × ℚ) × List ℕ
  | b :: a :: rest, out =>
      let r1 := |b.2 - a.2|
      let r2 := |p - b.2|
      if r1 ≤ r2 then
        rfcStep m h p rest
          (if (if m = 1 then r1 ≤ h else r1 < h) then out else out ++ [a.1, b.1])
      else (b :: a :: rest, out)
  | stack, out => (stack, out)

/-- Modelled from the spec: left-to-right scan of the rainflow core over the
enumerated input points; at end of input the remaining pending stack is
discarded (spec §4.4 state machine, "terminal state reached at end of input —
discard remainder"). -/
def rfcScan (m : ℕ) (h : ℚ) :
    List (ℕ × ℚ) → List (ℕ × ℚ) → List ℕ → List ℕ
  | [], _stack, out => out
  | p :: ps, stack, out =>
      let so := rfcStep m h p.2 stack out
      rfcScan m h ps (p :: so.1) so.2

/-- Modelled from the spec: indices of the points of `y` that survive the
rainflow scan as cycle boundaries (spec §4.4, `rainflow_filter_indices`). -/
def rfcCoreIndices (y : List ℚ) (h : ℚ) (m : ℕ) : List ℕ :=
  rfcScan m h y.enum [] []

/-- `findrfc(tp, h, method)` from `src/misc.py:1225-1302`: drop the first
sample when it is a maximum, give up (silently) when fewer than four points
remain (`NC < 1`), warn and return empty when the first three points are
monotone, otherwise run the core scan and return its sorted indices shifted
back by the initial offset.  The second component of the result records
whether the non-turning-points warning was emitted.  Fewer than two input
points raise an `IndexError` (`y[1]`). -/
def findrfc (tp : List ℚ) (h : ℚ) (method : ℕ) :
    Except String (List ℕ × Bool) :=
  match tp with
  | t0 :: t1 :: _ =>
      let t_start : ℕ := if t1 < t0 then 1 else 0
      let y := tp.drop t_start
      let n := y.length
      if (n : ℤ) / 2 - 1 < 1 then .ok ([], false)
      else
        match y with
        | a :: b :: c :: _ =>
            if (b < a ∧ c < b) ∨ (a < b ∧ b < c) then .ok ([], true)
            else
              .ok ((List.insertionSort (· ≤ ·)
                      (rfcCoreIndices y h method)).map (· + t_start), false)
        | _ => .ok ([], false)
  | _ => .error "index 1 is out of bounds"

/-- The boundary augmentation of `findtp` (`src/misc.py:1426-1438`): append
the last index, and also prepend index 0 for the `'astm'` convention (when 0
is not already the first extremum) or when the series descends into its
first extremum. -/
def tpBoundary (x : List ℚ) (kind : Option String) : List ℕ :=
  let ind := findextrema x
  let n := x.length
  if kind = some "astm" then
    if ind.headD 0 ≠ 0 then 0 :: (ind ++ [n - 1]) else ind ++ [n - 1]
  else
    if x.getD (ind.getD 1 0) 0 < x.getD (ind.headD 0) 0 then
      0 :: (ind ++ [n - 1])
    else ind ++ [n - 1]

/-- The `'mw'`/`'Mw'` trimming of `findtp` (`src/misc.py:1444-1456`): drop
the first point when its type does not match the wave definition, then drop
the last point when the count is even.  With fewer than two indices the
source indexing `x[ind[1]]` raises. -/
def tpTrim (x : List ℚ) (kind : Option String) (ind2 : List ℕ) :
    Except String (Option (List ℕ)) :=
  if kind = some "mw" ∨ kind = some "Mw" then
    if ind2.length < 2 then .error "index 1 is out of bounds"
    else
      let firstIsMax := x.getD (ind2.getD 1 0) 0 < x.getD (ind2.headD 0) 0
      let ind3 := if xor (decide firstIsMax) (decide (kind = some "Mw"))
                  then ind2.drop 1 else ind2
      let ind4 := if ind3.length % 2 ≠ 1 then ind3.dropLast else ind3
      .ok (some ind4)
  else .ok (some ind2)

/-- `findtp(x, h, kind)` from `src/misc.py:1357-1457`.  `.ok none` models the
`return None` sentinel (fewer than two extrema); `.error` models a raised
exception (reachable in the `mw`/`Mw` branch when the rainflow filter leaves
fewer than two indices, where `x[ind[1]]` raises `IndexError`). -/
def findtp (x : List ℚ) (h : ℚ) (kind : Option String) :
    Except String (Option (List ℕ)) :=
  let n := x.length
  if h < 0 then .ok (some (List.range n))
  else
    let ind := findextrema x
    if ind.length < 2 then .ok none
    else
      let ind1 := tpBoundary x kind
      let step2 : Except String (List ℕ) :=
        if 0 < h then
          match findrfc (ind1.map (fun i => x.getD i 0)) h 2 with
          | .ok pr => .ok (pr.1.map (fun k => ind1.getD k 0))
          | .error e => .error e
        else .ok ind1
      match step2 with
      | .error e => .error e
      | .ok ind2 => tpTrim x kind ind2

/-- Index of the first minimum of a list (`np.argmin`), via an accumulator. -/
def argminAux (best : ℚ) (bi i : ℕ) : List ℚ → ℕ
  | [] => bi
  | a :: rest =>
      if a < best then argminAux a i (i + 1) rest
      else argminAux best bi (i + 1) rest

/-- `np.argmin`: index of the first minimal element (0 on empty input). -/
def argminQ : List ℚ → ℕ
  | [] => 0
  | a :: rest => argminAux a 0 1 rest

/-- Index of the first maximum of a list (`np.argmax`), via an accumulator. -/
def argmaxAux (best : ℚ) (bi i : ℕ) : List ℚ → ℕ
  | [] => bi
  | a :: rest =>
      if best < a then argmaxAux a i (i + 1) rest
      else argmaxAux best bi (i + 1) rest

/-- `np.argmax`: index of the first maximal element (0 on empty input). -/
def argmaxQ : List ℚ → ℕ
  | [] => 0
  | a :: rest => argmaxAux a 0 1 rest

/-- Slice `x[a:b]` of a list. -/
def sliceQ (x : List ℚ) (a b : ℕ) : List ℚ := (x.drop a).take (b - a)

/-- `x.mean()` of a rational list. -/
def meanQ (x : List ℚ) : ℚ := (x.foldl (· + ·) 0) / (x.length : ℚ)

/-- `findtc(x_in, v, kind)` from `src/misc.py:1460-1545`: level crossings at
`v` (defaulting to the mean), early exit with two empty vectors when there
are at most two crossings, otherwise one trough/crest between each pair of
consecutive crossings, located with `argmin`/`argmax` on the slice
`x[v_ind[j]+1 : v_ind[j+1]+1]`; the slot `n_c - 2` is filled only in the
`None`/`'tw'`/`'cw'` cases when `2*n_tc + 1 < n_c` and otherwise keeps the
preallocated 0. -/
def findtc (x : List ℚ) (vopt : Option ℚ) (kind : Option String) :
    Except String (List ℕ × List ℕ) :=
  let v := vopt.getD (meanQ x)
  match findcross x v kind with
  | .error e => .error e
  | .ok v_ind =>
      let n_c := v_ind.length
      if n_c ≤ 2 then .ok ([], [])
      else
        let is_even := (n_c + 1) % 2
        let n_tc := (n_c - 1 - is_even) / 2
        let firstIsDown :=
          x.getD (v_ind.headD 0 + 1) 0 < x.getD (v_ind.headD 0) 0
        let f1 := fun l => if firstIsDown then argminQ l else argmaxQ l
        let f2 := fun l => if firstIsDown then argmaxQ l else argminQ l
        let seg := fun j => sliceQ x (v_ind.getD j 0 + 1) (v_ind.getD (j + 1) 0 + 1)
        let entry := fun j =>
          if j < 2 * n_tc then (if j % 2 = 0 then f1 (seg j) else f2 (seg j))
          else if 2 * n_tc + 1 < n_c ∧
                  (kind = none ∨ kind = some "tw" ∨ kind = some "cw") ∧
                  j = n_c - 2 then f1 (seg j)
          else 0
        .ok ((List.range (n_c - 1)).map (fun j => v_ind.getD j 0 + entry j + 1),
             v_ind)

/-- A sample that may be NaN: `none` is NaN, `some q` a finite value. -/
abbrev VQ := Option ℚ

/-- Is the sample NaN (`np.isnan`)? -/
def isNanV : VQ → Bool
  | none => true
  | some _ => false

/-- NaN-propagating subtraction. -/
def vsub : VQ → VQ → VQ
  | some a, some b => some (a - b)
  | _, _ => none

/-- NaN-propagating negation. -/
def vneg : VQ → VQ
  | some a => some (-a)
  | none => none

/-- IEEE-style `>`: any comparison with NaN is false. -/
def vgt : VQ → VQ → Bool
  | some a, some c => decide (c < a)
  | _, _ => false

/-- IEEE-style `<`: any comparison with NaN is false. -/
def vlt : VQ → VQ → Bool
  | some a, some c => decide (a < c)
  | _, _ => false

/-- IEEE-style `|a| <= z`: false when either side is NaN. -/
def vabsLe : VQ → VQ → Bool
  | some a, some z => decide (|a| ≤ z)
  | _, _ => false

/-- `np.diff` over NaN-able samples. -/
def diffV (l : List VQ) : List VQ := List.zipWith vsub (l.drop 1) l

/-- `np.flatnonzero` of a boolean vector: indices of the true entries. -/
def flatnonzeroB (l : List Bool) : List ℕ :=
  (List.range l.length).filter (fun i => l.getD i false)

/-- `np.unique` of an index vector: sorted with duplicates removed. -/
def uniqueSorted (l : List ℕ) : List ℕ :=
  (List.insertionSort (· ≤ ·) l).dedup

/-- The `_find_nans` helper of `findoutliers` (`src/misc.py:1614-1618`): the
missing-data report, `np.flatnonzero(np.isnan(xn))`. -/
def find_nans (xn : List VQ) : List ℕ :=
  (List.range xn.length).filter (fun i => isNanV (xn.getD i (some 0)))

/-- `findoutliers(x, zcrit, dcrit, ddcrit)` from `src/misc.py:1548-1689`.
The three thresholds are taken as given (NaN-able) values; the
`dcrit`/`ddcrit` default `1.5 * xn.std()` of the source involves a square
root and is outside this rational model, so a caller passes the resolved
threshold (possibly NaN, which every comparison rejects, as in IEEE
arithmetic).  Faithfully to `src/misc.py:1661`, the NaN samples are zeroed
only when `np.any(i_missing)` holds, i.e. when some NaN sits at a positive
index; and faithfully to `src/misc.py:1681-1684`, the good-point mask is
only updated when more than one spurious index was collected. -/
def findoutliers (x : List VQ) (zcrit dcrit ddcrit : VQ) :
    Except String (List ℕ × List ℕ) :=
  if x.length ≤ 2 then .error "The vector must have more than 2 elements!"
  else
    let i_missing := find_nans x
    let xn := if i_missing.any (fun i => i ≠ 0) then
                x.map (fun v => if isNanV v then some 0 else v)
              else x
    let dxn := diffV xn
    let ddxn := diffV dxn
    let jumps := fun (d : List VQ) (c : VQ) =>
      ((flatnonzeroB (d.map (fun a => vgt a c))).map (· + 1)) ++
        flatnonzeroB (d.map (fun a => vlt a (vneg c)))
    let mask := dxn.map (fun a => vabsLe a zcrit)
    let i_small := flatnonzeroB mask
    let flats :=
      if i_small ≠ [] then
        let i_small1 := i_small.map (· + 1)
        let i_step :=
          (flatnonzeroB (List.zipWith (fun a b => a != b) (mask.drop 1) mask)).map
            (· + 1)
        (i_step.map (· - 1)) ++ i_small1 ++ i_step ++ (i_step.map (· + 1))
      else []
    let ind := jumps dxn dcrit ++ jumps ddxn ddcrit ++ flats
    if 1 < ind.length then
      let indU := uniqueSorted ind
      .ok (indU, (List.range x.length).filter (fun i => decide (i ∉ indU)))
    else .ok (ind, List.range x.length)

/-- Input of `findpeaks`: a vector or a matrix (`data1.ndim` is 1 or 2). -/
inductive PeakData where
  | one (row : List ℚ)
  | two (rows : List (List ℚ))

/-- Stable ascending argsort of a rational list (ties keep index order). -/
def argsortAsc (l : List ℚ) : List ℕ :=
  List.insertionSort
    (fun i j => l.getD i 0 < l.getD j 0 ∨ (l.getD i 0 = l.getD j 0 ∧ i ≤ j))
    (List.range l.length)

/-- `peaks.argsort()[::-1]`: descending argsort. -/
def argsortDesc (l : List ℚ) : List ℕ := (argsortAsc l).reverse

/-- One row body of the `findpeaks` loop (`src/misc.py:1157-1161`):
`tp = findtp(row, min_h)`, then `if len(tp)` — which raises `TypeError` when
`findtp` returned its `None` sentinel — selects every second turning point
(the maxima), and an empty `tp` falls back to the row's argmax. -/
def peaksRow (rows : List (List ℚ)) (mh : ℚ) (iy : ℕ) :
    Except String (List ℕ) :=
  let row := rows.getD iy []
  match findtp row mh none with
  | .error e => .error e
  | .ok none => .error "object of type NoneType has no len()"
  | .ok (some tp) =>
      .ok (if tp ≠ [] then everyOther (tp.drop 1) else [argmaxQ row])

/-- The row loop of `findpeaks` (`src/misc.py:1156-1173`), carrying `ind_p`
and the last row's `ind`.  In the 2-D case the row above/below comparison on
the first row raises `IndexError` when there is no second row
(`data1[iy + 1, ind]`). -/
def peaksLoop (rows : List (List ℚ)) (mh : ℚ) (ndim nrows mcols : ℕ) :
    List ℕ → List (List ℕ) → List ℕ →
    Except String (List (List ℕ) × List ℕ)
  | [], indP, ind => .ok (indP, ind)
  | iy :: rest, indP, _ind =>
      match peaksRow rows mh iy with
      | .error e => .error e
      | .ok ind =>
          if 1 < ndim then
            if iy = 0 ∧ nrows ≤ 1 then .error "index 1 is out of bounds"
            else
              let keep : ℕ → Bool := fun c =>
                let cur := (rows.getD iy []).getD c 0
                if iy = 0 then decide ((rows.getD (iy + 1) []).getD c 0 < cur)
                else if iy = nrows - 1 then
                  decide ((rows.getD (iy - 1) []).getD c 0 < cur)
                else
                  decide ((rows.getD (iy - 1) []).getD c 0 < cur) &&
                    decide ((rows.getD (iy + 1) []).getD c 0 < cur)
              let ind2 := ind.filter keep
              let indP' := if ind2 ≠ [] then
                             indP ++ [ind2.map (· + iy * mcols)]
                           else indP
              peaksLoop rows mh ndim nrows mcols rest indP' ind
          else peaksLoop rows mh ndim nrows mcols rest indP ind

/-- `findpeaks(data, n, min_h, min_p)` from `src/misc.py:1105-1191`:
threshold default `0.05 * (max - min)`, per-row turning-point maxima with
2-D neighbor filtering, then the `n` highest peaks in descending order,
optionally pruned below `min_p * max`. -/
def findpeaks (data : PeakData) (n : ℕ) (min_h : Option ℚ) (min_p : ℚ) :
    Except String (List ℕ) :=
  let rows := match data with | .one r => [r] | .two rs => rs
  let vals := rows.flatten
  match vals with
  | [] => .error "zero-size array reduction has no identity"
  | v0 :: vrest =>
      let dmax := vrest.foldl max v0
      let dmin := vrest.foldl min v0
      let mh := min_h.getD ((5 / 100) * (dmax - dmin))
      let ndim : ℕ := match data with | .one _ => 1 | .two _ => 2
      let nrows := rows.length
      let mcols := (rows.headD []).length
      match peaksLoop rows mh ndim nrows mcols (List.range nrows) [] [] with
      | .error e => .error e
      | .ok (indP, indLast) =>
          let ind := if 1 < ndim then indP.flatten else indLast
          if ind.length = 0 then .ok []
          else
            let flatGet : ℕ → ℚ := fun i => vals.getD i 0
            let peaks := ind.map flatGet
            let ord := argsortDesc peaks
            let nmax := min n ind.length
            let sel := (ord.take nmax).map (fun k => ind.getD k 0)
            let final := if 0 < min_p then
                           sel.filter (fun i => decide (min_p * dmax < flatGet i))
                         else sel
            .ok final

/-! ## Lemmas about the carried-sign scan -/

theorem carried_length (c : Int) (l : List Int) :
    (carried c l).length = l.length := by
  induction l generalizing c with
  | nil => rfl
  | cons s rest ih => simp [carried, ih]

theorem carried_all_nonzero (c : Int) (l : List Int)
    (h : ∀ s ∈ l, s ≠ 0) : carried c l = l := by
  induction l generalizing c with
  | nil => rfl
  | cons s rest ih =>
      have hs : s ≠ 0 := h s (by simp)
      simp only [carried, if_neg hs]
      exact congrArg (s :: ·) (ih s (fun t ht => h t (by simp [ht])))

theorem carried_getD_nonzero (c : Int) (l : List Int) (i : ℕ)
    (hi : i < l.length) (hnz : l.getD i 0 ≠ 0) :
    (carried c l).getD i 0 = l.getD i 0 := by
  induction l generalizing c i with
  | nil => simp at hi
  | cons s rest ih =>
      cases i with
      | zero =>
          simp only [List.getD_cons_zero] at hnz ⊢
          simp [carried, if_neg hnz]
      | succ k =>
          simp only [List.getD_cons_succ] at hnz ⊢
          simp only [carried, List.getD_cons_succ]
          exact ih _ _ (by simpa using hi) hnz

theorem carried_getD_succ (c : Int) (l : List Int) (i : ℕ)
    (hi : i + 1 < l.length) :
    (carried c l).getD (i + 1) 0 =
      (if l.getD (i + 1) 0 = 0 then (carried c l).getD i 0
       else l.getD (i + 1) 0) := by
  induction l generalizing c i with
  | nil => simp at hi
  | cons s rest ih =>
      cases i with
      | zero =>
          simp only [List.length_cons] at hi
          match rest, hi with
          | s2 :: r2, _ =>
              by_cases h2 : s2 = 0 <;>
                simp [carried, List.getD_cons_zero, List.getD_cons_succ, h2]
      | succ k =>
          simp only [List.getD_cons_succ]
          simp only [carried, List.getD_cons_succ]
          exact ih _ _ (by simpa using hi)

theorem carried_getD_mem_or (c : Int) (l : List Int) (i : ℕ)
    (hi : i < l.length) :
    l.getD i 0 = 0 ∨ (carried c l).getD i 0 = l.getD i 0 := by
  by_cases h : l.getD i 0 = 0
  · exact Or.inl h
  · exact Or.inr (carried_getD_nonzero c l i hi h)

theorem carried_mem_range (c : Int) (l : List Int)
    (hc : c = -1 ∨ c = 0 ∨ c = 1)
    (hl : ∀ s ∈ l, s = -1 ∨ s = 0 ∨ s = 1) :
    ∀ a ∈ carried c l, a = -1 ∨ a = 0 ∨ a = 1 := by
  induction l generalizing c with
  | nil => simp [carried]
  | cons s rest ih =>
      intro a ha
      have hs : s = -1 ∨ s = 0 ∨ s = 1 := hl s (by simp)
      have hc' : (if s = 0 then c else s) = -1 ∨ (if s = 0 then c else s) = 0 ∨
          (if s = 0 then c else s) = 1 := by
        by_cases h : s = 0 <;> simp [h, hc]
        omega
      simp only [carried, List.mem_cons] at ha
      rcases ha with rfl | ha
      · exact hc'
      · exact ih _ hc' (fun t ht => hl t (by simp [ht])) a ha

theorem signZ_mem_range (q : ℚ) : signZ q = -1 ∨ signZ q = 0 ∨ signZ q = 1 := by
  unfold signZ
  by_cases h1 : q < 0 <;> by_cases h2 : 0 < q <;> simp [h1, h2]

/-! ## Lemmas about the raw crossing list -/

theorem findcrossRaw_mem (xn : List Int) (j : ℕ) :
    j ∈ findcrossRaw xn ↔
      j < xn.length - 1 ∧
        (carried 0 xn).getD j 0 ≠ (carried 0 xn).getD (j + 1) 0 := by
  simp [findcrossRaw, List.mem_filter, List.mem_range]

theorem findcrossRaw_sorted (xn : List Int) :
    (findcrossRaw xn).Pairwise (· < ·) :=
  (List.pairwise_lt_range _).filter _

/-- Inside a sorted list decomposed around two consecutive elements, no
member lies strictly between them. -/
theorem sorted_gap {l : List ℕ} {pre rest : List ℕ} {j j' : ℕ}
    (hsort : l.Pairwise (· < ·)) (hdec : l = pre ++ j :: j' :: rest)
    {i : ℕ} (hmem : i ∈ l) (h1 : j < i) (h2 : i < j') : False := by
  subst hdec
  rcases List.mem_append.mp hmem with hp | hc
  · have := (List.pairwise_append.mp hsort).2.2 i hp j (by simp)
    omega
  · rcases hc with _ | ⟨_, hc⟩
    · omega
    rcases hc with _ | ⟨_, hc⟩
    · omega
    · have hpair := (List.pairwise_append.mp hsort).2.1
      have := (List.pairwise_cons.mp hpair).2
      have := (List.pairwise_cons.mp this).1 i hc
      omega

/-- In a sorted list decomposed around its head, no member lies before it. -/
theorem sorted_head_gap {l rest : List ℕ} {j : ℕ}
    (hsort : l.Pairwise (· < ·)) (hdec : l = j :: rest)
    {i : ℕ} (hmem : i ∈ l) (h1 : i < j) : False := by
  subst hdec
  rcases List.mem_cons.mp hmem with rfl | hc
  · omega
  · have := (List.pairwise_cons.mp hsort).1 i hc
    omega

/-- In a sorted list decomposed around its last element, no member lies
after it. -/
theorem sorted_last_gap {l pre : List ℕ} {j : ℕ}
    (hsort : l.Pairwise (· < ·)) (hdec : l = pre ++ [j])
    {i : ℕ} (hmem : i ∈ l) (h1 : j < i) : False := by
  subst hdec
  rcases List.mem_append.mp hmem with hp | hc
  · have := (List.pairwise_append.mp hsort).2.2 i hp j (by simp)
    omega
  · simp at hc
    omega

theorem findcrossRaw_bound {xn : List Int} {j : ℕ}
    (hj : j ∈ findcrossRaw xn) : j + 1 < xn.length := by
  have := (findcrossRaw_mem xn j).mp hj
  omega

/-- A down-crossing at index `j`, by the sign comparison the source uses
(`xn[ind[0]] > xn[ind[0] + 1]`, `src/misc.py:1053`). -/
def downAt (xn : List Int) (j : ℕ) : Prop := xnAt xn (j + 1) < xnAt xn j

instance (xn : List Int) (j : ℕ) : Decidable (downAt xn j) := by
  unfold downAt; infer_instance

theorem getD_range_of_mem {xn : List Int}
    (hr : ∀ s ∈ xn, s = -1 ∨ s = 0 ∨ s = 1) (i : ℕ) :
    xn.getD i 0 = -1 ∨ xn.getD i 0 = 0 ∨ xn.getD i 0 = 1 := by
  by_cases hi : i < xn.length
  · have : xn.getD i 0 ∈ xn := by
      rw [List.getD_eq_getElem xn 0 hi]
      exact List.getElem_mem hi
    exact hr _ this
  · rw [List.getD_eq_default xn 0 (by omega)]
    simp

theorem carried_getD_range {xn : List Int}
    (hr : ∀ s ∈ xn, s = -1 ∨ s = 0 ∨ s = 1) (i : ℕ) :
    (carried 0 xn).getD i 0 = -1 ∨ (carried 0 xn).getD i 0 = 0 ∨
      (carried 0 xn).getD i 0 = 1 := by
  by_cases hi : i < (carried 0 xn).length
  · have : (carried 0 xn).getD i 0 ∈ carried 0 xn := by
      rw [List.getD_eq_getElem _ 0 hi]
      exact List.getElem_mem hi
    exact carried_mem_range 0 xn (by simp) hr _ this
  · rw [List.getD_eq_default _ 0 (by omega)]
    simp

/-- At a crossing, the new carried sign is the (non-zero) raw sign of the
sample after the crossing. -/
theorem crossing_new_sign {xn : List Int} {j : ℕ}
    (hj : j + 1 < xn.length)
    (hne : (carried 0 xn).getD j 0 ≠ (carried 0 xn).getD (j + 1) 0) :
    xn.getD (j + 1) 0 ≠ 0 ∧
      (carried 0 xn).getD (j + 1) 0 = xn.getD (j + 1) 0 := by
  have h := carried_getD_succ 0 xn j hj
  by_cases h0 : xn.getD (j + 1) 0 = 0
  · rw [if_pos h0] at h
    exact absurd h.symm hne
  · rw [if_neg h0] at h
    exact ⟨h0, h⟩

/-- The polarity of a crossing is decided by the sign after it: a crossing
is a down-crossing (per the code's sample comparison) exactly when the new
carried sign is `-1`. -/
theorem downAt_iff {xn : List Int} {j : ℕ}
    (hr : ∀ s ∈ xn, s = -1 ∨ s = 0 ∨ s = 1)
    (hj : j + 1 < xn.length)
    (hne : (carried 0 xn).getD j 0 ≠ (carried 0 xn).getD (j + 1) 0) :
    downAt xn j ↔ xn.getD (j + 1) 0 = -1 := by
  obtain ⟨hnz, hcs⟩ := crossing_new_sign hj hne
  have hxj := getD_range_of_mem hr j
  have hxj1 := getD_range_of_mem hr (j + 1)
  have hcj := carried_getD_range hr j
  have hor := carried_getD_mem_or 0 xn j (by omega)
  rw [hcs] at hne
  unfold downAt xnAt
  omega

/-- Consecutive entries of a function agreeing on a block makes the block
constant. -/
theorem const_run (f : ℕ → Int) (a : ℕ) :
    ∀ k, (∀ i, a ≤ i → i < k → f i = f (i + 1)) → a ≤ k → f k = f a := by
  intro k
  induction k with
  | zero =>
      intro _ h
      have ha : a = 0 := by omega
      rw [ha]
  | succ m ih =>
      intro hstep hak
      rcases Nat.lt_or_ge a (m + 1) with h | h
      · have hm : a ≤ m := by omega
        have hs := hstep m hm (by omega)
        rw [← hs]
        exact ih (fun i h1 h2 => hstep i h1 (by omega)) hm
      · have ha : a = m + 1 := by omega
        rw [ha]

/-- Between two crossings that are consecutive in the raw crossing list, the
carried sign is constant on the half-open block after the first. -/
theorem carried_const_between {xn : List Int} {pre rest : List ℕ} {j j' : ℕ}
    (hdec : findcrossRaw xn = pre ++ j :: j' :: rest) :
    ∀ k, j + 1 ≤ k → k ≤ j' →
      (carried 0 xn).getD k 0 = (carried 0 xn).getD (j + 1) 0 := by
  have hj' : j' ∈ findcrossRaw xn := by rw [hdec]; simp
  have hj'len := findcrossRaw_bound hj'
  intro k hk1 hk2
  refine const_run (fun i => (carried 0 xn).getD i 0) (j + 1) k ?_ hk1
  intro i h1 h2
  by_contra hne
  have hmem : i ∈ findcrossRaw xn := by
    rw [findcrossRaw_mem]
    exact ⟨by omega, hne⟩
  exact sorted_gap (findcrossRaw_sorted xn) hdec hmem (by omega) (by omega)

/-- Consecutive crossings have opposite polarity. -/
theorem downAt_alternate {xn : List Int} {pre rest : List ℕ} {j j' : ℕ}
    (hr : ∀ s ∈ xn, s = -1 ∨ s = 0 ∨ s = 1)
    (hdec : findcrossRaw xn = pre ++ j :: j' :: rest) :
    (downAt xn j' ↔ ¬ downAt xn j) := by
  have hjm : j ∈ findcrossRaw xn := by rw [hdec]; simp
  have hj'm : j' ∈ findcrossRaw xn := by rw [hdec]; simp
  have hjb := findcrossRaw_bound hjm
  have hj'b := findcrossRaw_bound hj'm
  have hjne := ((findcrossRaw_mem xn j).mp hjm).2
  have hj'ne := ((findcrossRaw_mem xn j').mp hj'm).2
  have hjlt : j < j' := by
    have hsort := findcrossRaw_sorted xn
    rw [hdec] at hsort
    have := (List.pairwise_append.mp hsort).2.1
    exact (List.pairwise_cons.mp this).1 j' (by simp)
  obtain ⟨hnz, hcs⟩ := crossing_new_sign hjb hjne
  obtain ⟨hnz', hcs'⟩ := crossing_new_sign hj'b hj'ne
  have hconst := carried_const_between hdec j' (by omega) (by omega)
  have hd := downAt_iff hr hjb hjne
  have hd' := downAt_iff hr hj'b hj'ne
  rw [hd, hd']
  have hxj1 := getD_range_of_mem hr (j + 1)
  have hxj'1 := getD_range_of_mem hr (j' + 1)
  have key : xn.getD (j + 1) 0 ≠ xn.getD (j' + 1) 0 := by
    rw [← hcs, ← hcs', ← hconst]
    exact hj'ne
  omega

/-- Derived view of the wave-kind branch of `findcross`
(`src/misc.py:1048-1063`): `wd` is "the first crossing must be a
down-crossing" (`dw`/`tw`), `wo` is "the count must be odd" (`dw`/`uw`). -/
def wavePolarityTrim (xn : List Int) (wd : Bool) : List ℕ :=
  if (decide (downAt xn ((findcrossRaw xn).headD 0)) ^^ wd) = true
  then (findcrossRaw xn).drop 1 else findcrossRaw xn

def waveTrim (xn : List Int) (wd wo : Bool) : List ℕ :=
  if (decide ((wavePolarityTrim xn wd).length % 2 = 1) ^^ wo) = true
  then (wavePolarityTrim xn wd).dropLast else wavePolarityTrim xn wd

theorem head?_of_dropLast_head? {l : List ℕ} {a : ℕ}
    (h : l.dropLast.head? = some a) : l.head? = some a := by
  match l with
  | [] => simp at h
  | [x] => simp at h
  | x :: y :: rest =>
      have he : (x :: y :: rest).dropLast = x :: (y :: rest).dropLast := rfl
      rw [he] at h
      simpa using h

theorem waveTrim_head_polarity (xn : List Int)
    (hr : ∀ s ∈ xn, s = -1 ∨ s = 0 ∨ s = 1) (wd wo : Bool) :
    ∀ j0, (waveTrim xn wd wo).head? = some j0 →
      (downAt xn j0 ↔ wd = true) := by
  intro j0 hj0
  have hj1 : (wavePolarityTrim xn wd).head? = some j0 := by
    unfold waveTrim at hj0
    by_cases hp : (decide ((wavePolarityTrim xn wd).length % 2 = 1) ^^ wo) = true
    · rw [if_pos hp] at hj0
      exact head?_of_dropLast_head? hj0
    · rw [if_neg hp] at hj0
      exact hj0
  unfold wavePolarityTrim at hj1
  by_cases hx : (decide (downAt xn ((findcrossRaw xn).headD 0)) ^^ wd) = true
  · rw [if_pos hx] at hj1
    match hmatch : findcrossRaw xn with
    | [] => rw [hmatch] at hj1; simp at hj1
    | [r0] => rw [hmatch] at hj1; simp at hj1
    | r0 :: r1 :: rest =>
        rw [hmatch] at hj1
        simp only [List.drop_one, List.tail_cons, List.head?_cons,
          Option.some.injEq] at hj1
        subst hj1
        have halt : downAt xn r1 ↔ ¬ downAt xn r0 :=
          @downAt_alternate xn [] rest r0 r1 hr (by rw [hmatch]; rfl)
        have hfd : downAt xn r0 ↔ wd = false := by
          rw [hmatch] at hx
          simp only [List.headD_cons] at hx
          rcases Bool.eq_false_or_eq_true wd with hw | hw <;>
            simp [hw] at hx <;> simp [hw, hx]
        rcases Bool.eq_false_or_eq_true wd with hw | hw <;>
          simp [hw] at hfd ⊢ <;> simp [halt, hfd]
  · rw [if_neg hx] at hj1
    match hmatch : findcrossRaw xn with
    | [] => rw [hmatch] at hj1; simp at hj1
    | r0 :: rest =>
        rw [hmatch] at hj1
        simp only [List.head?_cons, Option.some.injEq] at hj1
        subst hj1
        rw [hmatch] at hx
        simp only [List.headD_cons] at hx
        rcases Bool.eq_false_or_eq_true wd with hw | hw <;>
          simp [hw] at hx <;> simp [hw, hx]

theorem waveTrim_parity (xn : List Int) (wd wo : Bool) :
    (wo = true → waveTrim xn wd wo ≠ [] →
      (waveTrim xn wd wo).length % 2 = 1) ∧
    (wo = false → (waveTrim xn wd wo).length % 2 = 0) := by
  unfold waveTrim
  set ind1 := wavePolarityTrim xn wd with hind1
  constructor
  · intro hwo hne
    rw [hwo] at hne ⊢
    by_cases hc : (decide (ind1.length % 2 = 1) ^^ true) = true
    · rw [if_pos hc] at hne ⊢
      have hodd : ¬ ind1.length % 2 = 1 := by
        intro h
        rw [decide_eq_true h] at hc
        simp at hc
      have hlen : ind1.dropLast.length ≠ 0 := by
        intro h0
        exact hne (List.length_eq_zero.mp h0)
      rw [List.length_dropLast] at hlen ⊢
      omega
    · rw [if_neg hc] at hne ⊢
      by_contra h
      rw [decide_eq_false h] at hc
      simp at hc
  · intro hwo
    rw [hwo]
    by_cases hc : (decide (ind1.length % 2 = 1) ^^ false) = true
    · rw [if_pos hc]
      have hodd : ind1.length % 2 = 1 := by
        by_contra h
        rw [decide_eq_false h] at hc
        simp at hc
      rw [List.length_dropLast]
      omega
    · rw [if_neg hc]
      have hodd : ¬ ind1.length % 2 = 1 := by
        intro h
        rw [decide_eq_true h] at hc
        simp at hc
      omega

theorem findcross_wave_eq (x : List ℚ) (v : ℚ) (kd : String)
    (hk : kd = "dw" ∨ kd = "uw" ∨ kd = "tw" ∨ kd = "cw")
    (hne : ¬(findcrossRaw (x.map (fun a => signZ (a - v)))).isEmpty = true) :
    findcross x v (some kd) =
      .ok (waveTrim (x.map (fun a => signZ (a - v)))
            (decide (kd = "dw" ∨ kd = "tw")) (decide (kd = "dw" ∨ kd = "uw"))) := by
  rcases hk with rfl | rfl | rfl | rfl <;>
  · unfold findcross
    rw [if_neg (by simpa using hne), if_neg (by simp), if_neg (by simp),
      if_neg (by simp), if_pos (by simp)]
    unfold waveTrim wavePolarityTrim downAt
    simp

theorem signs_mem_range (x : List ℚ) (v : ℚ) :
    ∀ s ∈ x.map (fun a => signZ (a - v)), s = -1 ∨ s = 0 ∨ s = 1 := by
  intro s hs
  obtain ⟨a, _, rfl⟩ := List.mem_map.mp hs
  exact signZ_mem_range _

/-- C6 (amended): for the wave kinds `dw`/`uw`/`tw`/`cw`, whatever sequence
`findcross` returns starts with a crossing of the required polarity
(down-crossing for `dw`/`tw`, up-crossing for `uw`/`cw`) whenever it is
nonempty; its length is odd for `dw`/`uw` whenever it is nonempty, and even
for `tw`/`cw` always.  (The original claim asserted an odd length
unconditionally for `dw`/`uw`; the returned sequence can be empty — length
zero, not odd — when the crossings of the wrong polarity are all dropped.) -/
theorem C6_wave_filter_amended (x : List ℚ) (v : ℚ) (kind : Option String)
    (l : List ℕ)
    (hk : kind = some "dw" ∨ kind = some "uw" ∨ kind = some "tw" ∨
          kind = some "cw")
    (hres : findcross x v kind = .ok l) :
    (∀ j0, l.head? = some j0 →
      (downAt (x.map (fun a => signZ (a - v))) j0 ↔
        (kind = some "dw" ∨ kind = some "tw"))) ∧
    ((kind = some "dw" ∨ kind = some "uw") → l ≠ [] → l.length % 2 = 1) ∧
    ((kind = some "tw" ∨ kind = some "cw") → l.length % 2 = 0) := by
  have hr := signs_mem_range x v
  by_cases hne : (findcrossRaw (x.map (fun a => signZ (a - v)))).isEmpty = true
  · have hempty : findcross x v kind = .ok [] := by
      simp only [findcross]
      rw [List.isEmpty_iff] at hne
      rw [hne]
      simp
    rw [hempty] at hres
    have hl : l = [] := by
      have := hres
      simp only [Except.ok.injEq] at this
      exact this.symm
    subst hl
    refine ⟨?_, ?_, ?_⟩
    · intro j0 hj0
      simp at hj0
    · intro _ hcon
      exact absurd rfl hcon
    · intro _
      rfl
  · rcases hk with rfl | rfl | rfl | rfl <;>
    · rw [findcross_wave_eq x v _ (by simp) hne] at hres
      simp only [Except.ok.injEq] at hres
      subst hres
      refine ⟨?_, ?_, ?_⟩
      · intro j0 hj0
        have hp := waveTrim_head_polarity _ hr _ _ j0 hj0
        simp at hp ⊢
        exact hp
      · intro hkd hne2
        first
        | exact (waveTrim_parity _ _ _).1 (by rfl) hne2
        | simp at hkd
      · intro hkd
        first
        | exact (waveTrim_parity _ _ _).2 (by rfl)
        | simp at hkd

/-- C6 counterexample: the claim as stated promises an odd length for kind
`"dw"` whenever at least one raw crossing exists; on `x = [-1, 1]` the single
raw crossing is an up-crossing, `findcross` drops it, and the returned
sequence is empty, of even length 0. -/
theorem C6_wave_empty_counterexample :
    findcrossRaw ([(-1 : ℚ), 1].map (fun a => signZ (a - 0))) = [0] ∧
    findcross [(-1 : ℚ), 1] 0 (some "dw") = .ok [] ∧
    ([] : List ℕ).length % 2 ≠ 1 := by
  have hraw : findcrossRaw ([(-1 : ℚ), 1].map (fun a => signZ (a - 0)))
      = [0] := by
    norm_num [findcrossRaw, carried, signZ, List.range, List.range.loop]
  refine ⟨hraw, ?_, by decide⟩
  rw [findcross_wave_eq _ _ _ (by simp) (by rw [hraw]; decide)]
  unfold waveTrim wavePolarityTrim
  rw [hraw]
  norm_num [downAt, xnAt, signZ]

/-- C6 witness: `x = [1, -1]` at level 0 with kind `"dw"` has one raw
crossing, a down-crossing, which is kept: the result `[0]` starts with a
down-crossing and has odd length. -/
theorem C6_wave_filter_witness :
    (∀ j0, ([0] : List ℕ).head? = some j0 →
      (downAt ([(1 : ℚ), -1].map (fun a => signZ (a - 0))) j0 ↔
        ((some "dw" : Option String) = some "dw" ∨
          (some "dw" : Option String) = some "tw"))) ∧
    (((some "dw" : Option String) = some "dw" ∨
        (some "dw" : Option String) = some "uw") →
      ([0] : List ℕ) ≠ [] → ([0] : List ℕ).length % 2 = 1) ∧
    (((some "dw" : Option String) = some "tw" ∨
        (some "dw" : Option String) = some "cw") →
      ([0] : List ℕ).length % 2 = 0) :=
  C6_wave_filter_amended [1, -1] 0 (some "dw") [0] (Or.inl rfl) (by
    have hraw : findcrossRaw ([(1 : ℚ), -1].map (fun a => signZ (a - 0)))
        = [0] := by
      norm_num [findcrossRaw, carried, signZ, List.range, List.range.loop]
    rw [findcross_wave_eq _ _ _ (by simp) (by rw [hraw]; decide)]
    unfold waveTrim wavePolarityTrim
    rw [hraw]
    norm_num [downAt, xnAt, signZ])

/-- C3 (amended): an unrecognized `kind` aborts `findcross` with the
unknown-definition error only when at least one raw crossing exists; when no
crossing exists the function warns and returns the empty sequence before
ever inspecting `kind`. -/
theorem C3_unknown_kind_amended (x : List ℚ) (v : ℚ) (kind : Option String)
    (hk : crossKindKnown kind = false) :
    (findcrossRaw (x.map (fun a => signZ (a - v))) = [] →
      findcross x v kind = .ok []) ∧
    (findcrossRaw (x.map (fun a => signZ (a - v))) ≠ [] →
      findcross x v kind = .error "Unknown wave/crossing definition!") := by
  simp only [crossKindKnown, Bool.or_eq_false_iff, decide_eq_false_iff_not]
    at hk
  obtain ⟨⟨⟨⟨⟨⟨⟨⟨h1, h2⟩, h3⟩, h4⟩, h5⟩, h6⟩, h7⟩, h8⟩, h9⟩ := hk
  constructor
  · intro hraw
    simp only [findcross]
    rw [hraw]
    simp
  · intro hraw
    simp only [findcross]
    rw [if_neg (by simpa using hraw)]
    rw [if_neg (by simp [h1, h2, h3])]
    rw [if_neg (by simp [h4])]
    rw [if_neg (by simp [h5])]
    rw [if_neg (by simp [h6, h7, h8, h9])]

/-- C3 counterexample: with an unrecognized kind and a series with no
level-0 crossings, `findcross` returns an empty result instead of failing,
contradicting the claim that the call aborts regardless of the content of
`x`. -/
theorem C3_unknown_kind_no_crossings_ok :
    crossKindKnown (some "xx") = false ∧
    findcross [(1 : ℚ), 2] 0 (some "xx") = .ok [] := by
  refine ⟨by decide, ?_⟩
  norm_num [findcross, findcrossRaw, carried, signZ,
    List.range, List.range.loop]

/-- C3 witness: a series with one crossing and an unknown kind does reach
the `ValueError`. -/
theorem C3_unknown_kind_witness :
    (findcrossRaw ([(1 : ℚ), -1].map (fun a => signZ (a - 0))) = [] →
      findcross [(1 : ℚ), -1] 0 (some "xx") = .ok []) ∧
    (findcrossRaw ([(1 : ℚ), -1].map (fun a => signZ (a - 0))) ≠ [] →
      findcross [(1 : ℚ), -1] 0 (some "xx") =
        .error "Unknown wave/crossing definition!") :=
  C3_unknown_kind_amended [1, -1] 0 (some "xx") (by decide)

/-- C8 (amended): `findextrema` always returns exactly the level-0 crossing
indices of the first difference, each shifted by `+1` — in particular the
result is empty exactly when there is no crossing at all; there is no
fewer-than-two special case in `findextrema` (that check lives in
`findtp`). -/
theorem C8_findextrema_amended (x : List ℚ) :
    findextrema x =
      (findcrossRaw ((diffQ x).map (fun a => signZ (a - 0)))).map (· + 1) ∧
    (findextrema x = [] ↔
      findcrossRaw ((diffQ x).map (fun a => signZ (a - 0))) = []) := by
  have h : findcross (diffQ x) 0 none =
      .ok (findcrossRaw ((diffQ x).map (fun a => signZ (a - 0)))) := by
    simp only [findcross]
    by_cases he :
        (findcrossRaw ((diffQ x).map (fun a => signZ (a - 0)))).isEmpty = true
    · rw [if_pos he]
    · rw [if_neg he, if_pos (by simp)]
  constructor
  · unfold findextrema
    rw [h]
    rfl
  · unfold findextrema
    rw [h]
    simp [Except.toOption]

/-- C8 counterexample: `x = [0, 1, 0]` has exactly one crossing of the first
difference, and `findextrema` returns `[1]`, not the empty sequence the
claim requires for "fewer than 2 crossings". -/
theorem C8_single_crossing_counterexample :
    findcrossRaw ((diffQ [(0 : ℚ), 1, 0]).map (fun a => signZ (a - 0)))
        = [0] ∧
    findextrema [(0 : ℚ), 1, 0] = [1] ∧ ([1] : List ℕ) ≠ [] := by
  refine ⟨?_, ?_, by decide⟩
  · norm_num [findcrossRaw, carried, signZ, diffQ,
      List.range, List.range.loop]
  · norm_num [findextrema, findcross, findcrossRaw, carried, signZ, diffQ,
      List.range, List.range.loop, Except.toOption]

/-- C9: `findoutliers` refuses any input with at most two samples with the
fatal assertion message, for every threshold setting. -/
theorem C9_findoutliers_short_input (x : List VQ) (zcrit dcrit ddcrit : VQ)
    (hx : x.length ≤ 2) :
    findoutliers x zcrit dcrit ddcrit =
      .error "The vector must have more than 2 elements!" := by
  unfold findoutliers
  rw [if_pos hx]

/-- C9 witness at a concrete two-sample input. -/
theorem C9_findoutliers_short_input_witness :
    findoutliers [some 1, some 2] (some 0) (some 1) (some 1) =
      .error "The vector must have more than 2 elements!" :=
  C9_findoutliers_short_input [some 1, some 2] (some 0) (some 1) (some 1)
    (by decide)

/-- C7 (amended): when the first three points of the (possibly
first-sample-dropped) input are monotone, `findrfc` returns the empty result
without raising; the not-a-turning-point diagnostic is emitted only when at
least four points remain (`NC ≥ 1`) — with exactly three remaining points
the empty result is returned silently. -/
theorem C7_monotone_input_amended (t0 t1 : ℚ) (rest2 : List ℚ) (h : ℚ)
    (m : ℕ) (a b c : ℚ) (rest : List ℚ)
    (hy : (t0 :: t1 :: rest2).drop (if t1 < t0 then 1 else 0) =
      a :: b :: c :: rest)
    (hmono : (b < a ∧ c < b) ∨ (a < b ∧ b < c)) :
    findrfc (t0 :: t1 :: rest2) h m =
      .ok ([], decide (1 ≤ ((a :: b :: c :: rest).length : ℤ) / 2 - 1)) := by
  simp only [findrfc]
  rw [hy]
  by_cases hn : ((a :: b :: c :: rest).length : ℤ) / 2 - 1 < 1
  · rw [if_pos hn]
    have hd : decide (1 ≤ ((a :: b :: c :: rest).length : ℤ) / 2 - 1)
        = false := decide_eq_false (by omega)
    rw [hd]
  · rw [if_neg hn]
    have hd : decide (1 ≤ ((a :: b :: c :: rest).length : ℤ) / 2 - 1)
        = true := decide_eq_true (by omega)
    rw [hd]
    simp only []
    rw [if_pos hmono]

/-- C7 counterexample: on the monotone three-point input `[0, 1, 2]` the
claim promises a diagnostic; the code returns the empty result silently
(the `NC < 1` early return precedes the monotonicity check). -/
theorem C7_three_points_silent :
    findrfc [(0 : ℚ), 1, 2] 0 2 = .ok ([], false) := by
  norm_num [findrfc]

/-- C7 witness: a four-point monotone input does produce the diagnostic and
the empty result. -/
theorem C7_monotone_input_witness :
    findrfc [(0 : ℚ), 1, 2, 3] 0 2 =
      .ok ([], decide (1 ≤ ((([0, 1, 2] : List ℚ) ++ [(3 : ℚ)]).length : ℤ) /
            2 - 1)) := by
  have := C7_monotone_input_amended 0 1 [2, 3] 0 2 0 1 2 [3]
    (by norm_num) (by norm_num)
  simpa using this

theorem everyOther_sublist : ∀ (l : List α), List.Sublist (everyOther l) l
  | [] => List.Sublist.refl []
  | [a] => List.Sublist.refl [a]
  | a :: b :: rest => by
      have ih := everyOther_sublist rest
      exact List.Sublist.cons₂ a (ih.cons b)

theorem findcross_ok_sublist_raw (x : List ℚ) (v : ℚ) (kind : Option String)
    (l : List ℕ) (hres : findcross x v kind = .ok l) :
    List.Sublist l (findcrossRaw (x.map (fun a => signZ (a - v)))) := by
  simp only [findcross] at hres
  split at hres
  · simp only [Except.ok.injEq] at hres
    subst hres
    exact List.Sublist.refl _
  · split at hres
    · simp only [Except.ok.injEq] at hres
      subst hres
      exact List.Sublist.refl _
    · split at hres
      · simp only [Except.ok.injEq] at hres
        subst hres
        exact (everyOther_sublist _).trans (List.drop_sublist _ _)
      · split at hres
        · simp only [Except.ok.injEq] at hres
          subst hres
          exact (everyOther_sublist _).trans (List.drop_sublist _ _)
        · split at hres
          · simp only [Except.ok.injEq] at hres
            subst hres
            have hsub1 : List.Sublist (if (decide (xnAt (x.map (fun a => signZ (a - v)))
                ((findcrossRaw (x.map (fun a => signZ (a - v)))).headD 0 + 1) <
                  xnAt (x.map (fun a => signZ (a - v)))
                ((findcrossRaw (x.map (fun a => signZ (a - v)))).headD 0)) ^^
                decide (kind = some "dw" ∨ kind = some "tw")) = true
                then List.drop 1 (findcrossRaw (x.map (fun a => signZ (a - v))))
                else findcrossRaw (x.map (fun a => signZ (a - v))))
                  ((findcrossRaw (x.map (fun a => signZ (a - v))))) := by
              split
              · exact List.drop_sublist _ _
              · exact List.Sublist.refl _
            refine List.Sublist.trans ?_ hsub1
            split <;> split <;>
              first
                | exact List.dropLast_sublist _
                | exact List.Sublist.refl _
          · exact absurd hres (by simp)

theorem findcross_ok_sorted (x : List ℚ) (v : ℚ) (kind : Option String)
    (l : List ℕ) (hres : findcross x v kind = .ok l) :
    l.Pairwise (· < ·) :=
  (findcrossRaw_sorted (x.map (fun a => signZ (a - v)))).sublist
    (findcross_ok_sublist_raw x v kind l hres)

theorem findcross_ok_bound (x : List ℚ) (v : ℚ) (kind : Option String)
    (l : List ℕ) (hres : findcross x v kind = .ok l) :
    ∀ j ∈ l, j + 1 < x.length := by
  intro j hj
  have hmem := (findcross_ok_sublist_raw x v kind l hres).subset hj
  have := findcrossRaw_bound hmem
  simpa using this

theorem argminAux_lt_bound (rest : List ℚ) :
    ∀ (best : ℚ) (bi i bound : ℕ), bi < bound → i + rest.length ≤ bound →
      argminAux best bi i rest < bound := by
  induction rest with
  | nil => intro best bi i bound h1 _; simpa [argminAux] using h1
  | cons a r ih =>
      intro best bi i bound h1 h2
      simp only [List.length_cons] at h2
      unfold argminAux
      split
      · exact ih a i (i + 1) bound (by omega) (by omega)
      · exact ih best bi (i + 1) bound h1 (by omega)

theorem argmaxAux_lt_bound (rest : List ℚ) :
    ∀ (best : ℚ) (bi i bound : ℕ), bi < bound → i + rest.length ≤ bound →
      argmaxAux best bi i rest < bound := by
  induction rest with
  | nil => intro best bi i bound h1 _; simpa [argmaxAux] using h1
  | cons a r ih =>
      intro best bi i bound h1 h2
      simp only [List.length_cons] at h2
      unfold argmaxAux
      split
      · exact ih a i (i + 1) bound (by omega) (by omega)
      · exact ih best bi (i + 1) bound h1 (by omega)

theorem argminQ_lt_length {l : List ℚ} (h : l ≠ []) :
    argminQ l < l.length := by
  match l, h with
  | a :: rest, _ =>
      simp only [argminQ, List.length_cons]
      exact argminAux_lt_bound rest a 0 1 (rest.length + 1) (by omega)
        (by omega)

theorem argmaxQ_lt_length {l : List ℚ} (h : l ≠ []) :
    argmaxQ l < l.length := by
  match l, h with
  | a :: rest, _ =>
      simp only [argmaxQ, List.length_cons]
      exact argmaxAux_lt_bound rest a 0 1 (rest.length + 1) (by omega)
        (by omega)

theorem sliceQ_length (x : List ℚ) (a b : ℕ) :
    (sliceQ x a b).length = min (b - a) (x.length - a) := by
  simp [sliceQ]

theorem entry_le {x : List ℚ} {a b : ℕ} (hab : a < b) (hb : b + 1 < x.length)
    (e : ℕ)
    (he : e = 0 ∨ e = argminQ (sliceQ x (a + 1) (b + 1)) ∨
      e = argmaxQ (sliceQ x (a + 1) (b + 1))) :
    a + e + 1 ≤ b := by
  have hlen : (sliceQ x (a + 1) (b + 1)).length = b - a := by
    rw [sliceQ_length]
    omega
  have hne : sliceQ x (a + 1) (b + 1) ≠ [] := by
    intro hnil
    rw [hnil] at hlen
    simp at hlen
    omega
  rcases he with rfl | rfl | rfl
  · omega
  · have := argminQ_lt_length hne
    rw [hlen] at this
    omega
  · have := argmaxQ_lt_length hne
    rw [hlen] at this
    omega

/-- C10: whenever `findtc` finds at least three level crossings, the first
returned sequence holds exactly one turning point between each pair of
consecutive crossings: its length is the crossing count minus one, and each
returned index lies strictly after the crossing it follows and at or before
the next crossing. -/
theorem C10_findtc_bounds (x : List ℚ) (vopt : Option ℚ) (kind : Option String)
    (tc vind : List ℕ)
    (hres : findtc x vopt kind = .ok (tc, vind))
    (h3 : 3 ≤ vind.length) :
    tc.length = vind.length - 1 ∧
    ∀ j, j + 1 < vind.length →
      vind.getD j 0 < tc.getD j 0 ∧ tc.getD j 0 ≤ vind.getD (j + 1) 0 := by
  simp only [findtc] at hres
  cases hcr : findcross x (vopt.getD (meanQ x)) kind with
  | error e =>
      rw [hcr] at hres
      simp at hres
  | ok v_ind =>
      rw [hcr] at hres
      simp only [] at hres
      by_cases hn : v_ind.length ≤ 2
      · rw [if_pos hn] at hres
        simp only [Except.ok.injEq, Prod.mk.injEq] at hres
        rw [← hres.2] at h3
        simp at h3
      · rw [if_neg hn] at hres
        simp only [Except.ok.injEq, Prod.mk.injEq] at hres
        obtain ⟨htc, hvind⟩ := hres
        subst hvind
        have hsorted := findcross_ok_sorted x _ kind v_ind hcr
        have hbound := findcross_ok_bound x _ kind v_ind hcr
        have hadj : ∀ j, j + 1 < v_ind.length →
            v_ind.getD j 0 < v_ind.getD (j + 1) 0 := by
          intro j hj
          have h1 := List.pairwise_iff_get.mp hsorted ⟨j, by omega⟩
            ⟨j + 1, by omega⟩ (by simp)
          rw [List.getD_eq_getElem _ 0 (by omega),
            List.getD_eq_getElem _ 0 (by omega)]
          simpa using h1
        have hmem : ∀ j, j < v_ind.length → v_ind.getD j 0 + 1 < x.length := by
          intro j hj
          apply hbound
          rw [List.getD_eq_getElem _ 0 hj]
          exact List.getElem_mem hj
        constructor
        · rw [← htc]
          simp
        · intro j hj
          have hjlt : j < v_ind.length - 1 := by omega
          have htcj : tc.getD j 0 = v_ind.getD j 0 +
              (if j < 2 * ((v_ind.length - 1 - (v_ind.length + 1) % 2) / 2)
               then
                 (if j % 2 = 0 then
                    (if x.getD (v_ind.headD 0 + 1) 0 < x.getD (v_ind.headD 0) 0
                     then argminQ (sliceQ x (v_ind.getD j 0 + 1)
                        (v_ind.getD (j + 1) 0 + 1))
                     else argmaxQ (sliceQ x (v_ind.getD j 0 + 1)
                        (v_ind.getD (j + 1) 0 + 1)))
                  else
                    (if x.getD (v_ind.headD 0 + 1) 0 < x.getD (v_ind.headD 0) 0
                     then argmaxQ (sliceQ x (v_ind.getD j 0 + 1)
                        (v_ind.getD (j + 1) 0 + 1))
                     else argminQ (sliceQ x (v_ind.getD j 0 + 1)
                        (v_ind.getD (j + 1) 0 + 1))))
               else
                 if 2 * ((v_ind.length - 1 - (v_ind.length + 1) % 2) / 2) + 1 <
                      v_ind.length ∧
                     (kind = none ∨ kind = some "tw" ∨ kind = some "cw") ∧
                     j = v_ind.length - 2 then
                   (if x.getD (v_ind.headD 0 + 1) 0 < x.getD (v_ind.headD 0) 0
                    then argminQ (sliceQ x (v_ind.getD j 0 + 1)
                       (v_ind.getD (j + 1) 0 + 1))
                    else argmaxQ (sliceQ x (v_ind.getD j 0 + 1)
                       (v_ind.getD (j + 1) 0 + 1)))
                 else 0) + 1 := by
            rw [← htc]
            rw [List.getD_eq_getElem _ 0 (by simpa using hjlt)]
            simp [List.getElem_map, List.getElem_range]
          rw [htcj]
          constructor
          · omega
          · apply entry_le (hadj j hj) (hmem (j + 1) (by omega))
            split
            · split
              · split
                · exact Or.inr (Or.inl rfl)
                · exact Or.inr (Or.inr rfl)
              · split
                · exact Or.inr (Or.inr rfl)
                · exact Or.inr (Or.inl rfl)
            · split
              · split
                · exact Or.inr (Or.inl rfl)
                · exact Or.inr (Or.inr rfl)
              · exact Or.inl rfl

/-- C10 witness: `x = [0, 1, -1, 1]` at level 0 has the three crossings
`[0, 1, 2]`, and `findtc` returns the turning points `[1, 2]`, one strictly
inside each crossing interval. -/
theorem C10_findtc_bounds_witness :
    ([1, 2] : List ℕ).length = ([0, 1, 2] : List ℕ).length - 1 ∧
    ∀ j, j + 1 < ([0, 1, 2] : List ℕ).length →
      ([0, 1, 2] : List ℕ).getD j 0 < ([1, 2] : List ℕ).getD j 0 ∧
      ([1, 2] : List ℕ).getD j 0 ≤ ([0, 1, 2] : List ℕ).getD (j + 1) 0 :=
  C10_findtc_bounds [0, 1, -1, 1] (some 0) none [1, 2] [0, 1, 2]
    (by norm_num [findtc, findcross, findcrossRaw, carried, signZ, xnAt,
      meanQ, sliceQ, argminQ, argmaxQ, argminAux, argmaxAux,
      List.range, List.range.loop])
    (by norm_num)

/-- C1: at an input with exactly one spurious point, the good-point mask is
never updated (`if ind.size > 1`, `src/misc.py:1681`), so index 3 is
returned both as a bad index and as a good index: the returned pair is not
a disjoint partition. -/
theorem C1_findoutliers_single_flag_bug :
    findoutliers [some 0, some 1, some 2, some 10] (some 0) (some 5) (some 20)
      = .ok ([3], [0, 1, 2, 3]) ∧
    (3 : ℕ) ∈ ([3] : List ℕ) ∧ (3 : ℕ) ∈ ([0, 1, 2, 3] : List ℕ) := by
  refine ⟨?_, by decide, by decide⟩
  norm_num [findoutliers, find_nans, isNanV, vsub, vneg, vgt, vlt, vabsLe,
    diffV, flatnonzeroB, uniqueSorted, List.range, List.range.loop]

/-- C4: on the monotonic vector `[1, 2, 3]`, `findtp` returns its `None`
sentinel (fewer than two extrema) and `findpeaks` crashes on `len(tp)`
(`TypeError: object of type NoneType has no len()`, `src/misc.py:1158`)
instead of returning a result. -/
theorem C4_findpeaks_monotonic_raises :
    findpeaks (.one [1, 2, 3]) 2 none 0 =
      .error "object of type NoneType has no len()" := by
  norm_num [findpeaks, peaksLoop, peaksRow, findtp, findextrema, findcross,
    findcrossRaw, carried, signZ, diffQ, Except.toOption,
    List.range, List.range.loop]

/-- C5 counterexample: the NaN at index 1 is replaced by zero but its index
is not in the returned bad indices — it lands among the good indices,
refuting the claim that every NaN index appears in `bad_indices`. -/
theorem C5_nan_not_flagged :
    findoutliers [some 1, none, some 2, some 3, some 4] (some 0) (some 100)
        (some 100) = .ok ([], [0, 1, 2, 3, 4]) ∧
    ([some 1, none, some 2, some 3, some 4] : List VQ).getD 1 (some 0)
      = none ∧
    (1 : ℕ) ∉ ([] : List ℕ) ∧ (1 : ℕ) ∈ ([0, 1, 2, 3, 4] : List ℕ) := by
  refine ⟨?_, by decide, by decide, by decide⟩
  norm_num [findoutliers, find_nans, isNanV, vsub, vneg, vgt, vlt, vabsLe,
    diffV, flatnonzeroB, uniqueSorted, List.range, List.range.loop]

/-- The zero-fill `xn[i_missing] = 0.` of `src/misc.py:1661` applied to the
whole vector: every NaN sample is replaced by the finite value 0. -/
def zeroFillNans (x : List VQ) : List VQ :=
  x.map (fun v => if isNanV v then some 0 else v)

theorem zeroFillNans_length (x : List VQ) :
    (zeroFillNans x).length = x.length := by
  simp [zeroFillNans]

theorem isNanV_zeroFill_getD (x : List VQ) (i : ℕ) :
    isNanV ((zeroFillNans x)[i]?.getD (some 0)) = false := by
  rw [zeroFillNans, List.getElem?_map]
  cases h : x[i]? with
  | none => simp [isNanV]
  | some v => cases v <;> simp [isNanV]

theorem find_nans_zeroFillNans (x : List VQ) :
    find_nans (zeroFillNans x) = [] := by
  unfold find_nans
  apply List.filter_eq_nil_iff.mpr
  intro i _
  simp [List.getD_eq_getElem?_getD, isNanV_zeroFill_getD]

theorem zeroFillNans_of_no_nans (x : List VQ) (h : find_nans x = []) :
    zeroFillNans x = x := by
  have hall : ∀ a ∈ x, isNanV a = false := by
    intro a ha
    obtain ⟨i, hi, rfl⟩ := List.mem_iff_getElem.mp ha
    have hmem : i ∈ List.range x.length := List.mem_range.mpr hi
    unfold find_nans at h
    have hpred := List.filter_eq_nil_iff.mp h i hmem
    rw [List.getD_eq_getElem x (some 0) hi] at hpred
    exact Bool.not_eq_true _ ▸ eq_false_of_ne_true hpred
  rw [zeroFillNans]
  have hmap : x.map (fun v => if isNanV v then some 0 else v) = x.map id := by
    apply List.map_congr_left
    intro a ha
    simp [hall a ha]
  rw [hmap, List.map_id]

/-- C5 (amended): the NaN samples get no special flagging in the returned
pair.  Unless the missing-data report is exactly `[0]` — a lone NaN at index
0, where the `np.any(i_missing)` guard of `src/misc.py:1661` skips the fill
— `findoutliers` returns exactly what it returns on the zero-filled,
NaN-free series: a NaN index lands in the returned bad indices only if its
zero-filled value itself trips one of the outlier tests.  The indices the
(printed) missing-data report records are exactly the NaN positions. -/
theorem C5_missing_report_amended (x : List VQ) (zcrit dcrit ddcrit : VQ)
    (hm : find_nans x ≠ [0]) :
    findoutliers x zcrit dcrit ddcrit =
      findoutliers (zeroFillNans x) zcrit dcrit ddcrit ∧
    find_nans (zeroFillNans x) = [] ∧
    (∀ i, i ∈ find_nans x ↔ i < x.length ∧ x.getD i (some 0) = none) := by
  refine ⟨?_, find_nans_zeroFillNans x, ?_⟩
  · by_cases hnil : find_nans x = []
    · rw [zeroFillNans_of_no_nans x hnil]
    · have hany : ((find_nans x).any fun i => i ≠ 0) = true := by
        rcases hfn : find_nans x with _ | ⟨a, t⟩
        · exact absurd hfn hnil
        · rcases t with _ | ⟨b, t'⟩
          · have ha : a ≠ 0 := fun hz => hm (by rw [hfn, hz])
            simp [ha]
          · have hpw : List.Pairwise (· < ·) (find_nans x) :=
              List.Pairwise.filter _ (List.pairwise_lt_range _)
            rw [hfn] at hpw
            have hab : a < b := (List.pairwise_cons.mp hpw).1 b (by simp)
            have hb : b ≠ 0 := by omega
            simp [hb]
      have hxn2 : (if (find_nans (zeroFillNans x)).any (fun i => i ≠ 0) then
            (zeroFillNans x).map (fun v => if isNanV v then some 0 else v)
          else zeroFillNans x) = zeroFillNans x := by
        rw [find_nans_zeroFillNans x]
        simp
      have hxn1 : (if (find_nans x).any (fun i => i ≠ 0) then
            x.map (fun v => if isNanV v then some 0 else v)
          else x) = zeroFillNans x := by
        rw [hany]
        simp [zeroFillNans]
      simp only [findoutliers, zeroFillNans_length, hxn1, hxn2]
  · intro i
    have h : ∀ v : VQ, isNanV v = true ↔ v = none := by
      intro v
      cases v <;> simp [isNanV]
    simp [find_nans, List.mem_filter, List.mem_range, h]

/-- C5 witness: `x = [1, NaN, 2]` has its NaN at index 1, so the report is
`[1] ≠ [0]` and the theorem applies: `findoutliers` agrees with its value on
the zero-filled series `[1, 0, 2]`. -/
theorem C5_missing_report_witness :
    find_nans [some 1, none, some 2] ≠ [0] ∧
    (findoutliers [some 1, none, some 2] (some 0) (some 1) (some 1) =
      findoutliers (zeroFillNans [some 1, none, some 2]) (some 0) (some 1)
        (some 1) ∧
     find_nans (zeroFillNans [some 1, none, some 2]) = [] ∧
     (∀ i, i ∈ find_nans [some 1, none, some 2] ↔
        i < ([some 1, none, some 2] : List VQ).length ∧
        ([some 1, none, some 2] : List VQ).getD i (some 0) = none)) :=
  ⟨by decide,
   C5_missing_report_amended [some 1, none, some 2] (some 0) (some 1) (some 1)
     (by decide)⟩

/-- Strict alternation of a value sequence: every interior point is a strict
local extremum of the sequence, and adjacent values never tie (the invariant
the spec asserts about turning points). -/
def altStrict : List ℚ → Bool
  | a :: b :: c :: rest =>
      (decide ((a < b ∧ c < b) ∨ (b < a ∧ b < c))) && altStrict (b :: c :: rest)
  | [a, b] => decide (a ≠ b)
  | _ => true

/-- Directed alternation: consecutive values strictly rise and fall in
alternation, starting upward when `up` is true. -/
def altVals : Bool → List ℚ → Prop
  | _, [] => True
  | _, [_] => True
  | up, a :: b :: rest =>
      (if up then a < b else b < a) ∧ altVals (!up) (b :: rest)

theorem altVals_altStrict : ∀ (up : Bool) (l : List ℚ),
    altVals up l → altStrict l = true
  | _, [], _ => rfl
  | _, [_], _ => rfl
  | up, [a, b], h => by
      rcases Bool.eq_false_or_eq_true up with hu | hu <;>
        · subst hu
          simp only [altVals] at h
          simp only [altStrict, decide_eq_true_eq]
          intro he
          rw [he] at h
          exact absurd h.1 (lt_irrefl _)
  | up, a :: b :: c :: rest, h => by
      have h2 := altVals_altStrict (!up) (b :: c :: rest) h.2
      simp only [altStrict, Bool.and_eq_true, decide_eq_true_eq]
      refine ⟨?_, h2⟩
      have h1 := h.1
      have h3 := h.2.1
      rcases Bool.eq_false_or_eq_true up with hu | hu <;> subst hu <;>
        simp_all

theorem altVals_tail : ∀ (up : Bool) (l : List ℚ),
    altVals up l → altVals (!up) (l.drop 1)
  | _, [], _ => trivial
  | _, [_], _ => trivial
  | _, _ :: _ :: _, h => h.2

theorem altVals_dropLast : ∀ (up : Bool) (l : List ℚ),
    altVals up l → altVals up l.dropLast
  | _, [], _ => trivial
  | _, [_], _ => trivial
  | up, [a, b], _ => by
      simp only [List.dropLast]
      trivial
  | up, a :: b :: c :: rest, h => by
      have hd : (a :: b :: c :: rest).dropLast = a :: (b :: c :: rest).dropLast
        := rfl
      rw [hd]
      have h2 := altVals_dropLast (!up) (b :: c :: rest) h.2
      have hd2 : (b :: c :: rest).dropLast = b :: (c :: rest).dropLast := rfl
      rw [hd2] at h2 ⊢
      exact ⟨h.1, h2⟩

theorem diffQ_length (x : List ℚ) : (diffQ x).length = x.length - 1 := by
  simp [diffQ]

theorem diffQ_getD (x : List ℚ) (i : ℕ) (hi : i + 1 < x.length) :
    (diffQ x).getD i 0 = x.getD (i + 1) 0 - x.getD i 0 := by
  have hlen : i < (diffQ x).length := by
    rw [diffQ_length]
    omega
  rw [List.getD_eq_getElem _ 0 hlen]
  simp only [diffQ, List.getElem_zipWith, List.getElem_drop]
  rw [List.getD_eq_getElem _ 0 (by omega), List.getD_eq_getElem _ 0 (by omega)]
  have hidx : 1 + i = i + 1 := by omega
  simp [hidx]

theorem signZ_eq_one {q : ℚ} : signZ q = 1 ↔ 0 < q := by
  unfold signZ
  by_cases h1 : q < 0 <;> by_cases h2 : 0 < q <;> simp [h1, h2] <;> linarith

theorem signZ_eq_negone {q : ℚ} : signZ q = -1 ↔ q < 0 := by
  unfold signZ
  by_cases h1 : q < 0 <;> by_cases h2 : 0 < q <;> simp [h1, h2] <;> linarith

theorem signZ_eq_zero {q : ℚ} : signZ q = 0 ↔ q = 0 := by
  unfold signZ
  by_cases h1 : q < 0 <;> by_cases h2 : 0 < q <;> simp [h1, h2] <;>
    first
      | linarith
      | (intro h; rw [h] at h1; simp at h1)

theorem mono_run_up (x : List ℚ) :
    ∀ (b a : ℕ), a < b → b < x.length →
      (∀ i, a ≤ i → i < b → 0 < x.getD (i + 1) 0 - x.getD i 0) →
      x.getD a 0 < x.getD b 0 := by
  intro b
  induction b with
  | zero => intro a h; omega
  | succ m ih =>
      intro a hab hb hstep
      rcases Nat.lt_or_ge a m with h | h
      · have h1 := ih a h (by omega)
          (fun i h1 h2 => hstep i h1 (by omega))
        have h2 := hstep m (by omega) (by omega)
        linarith
      · have ha : a = m := by omega
        subst ha
        have h2 := hstep a (by omega) (by omega)
        linarith

theorem mono_run_down (x : List ℚ) :
    ∀ (b a : ℕ), a < b → b < x.length →
      (∀ i, a ≤ i → i < b → x.getD (i + 1) 0 - x.getD i 0 < 0) →
      x.getD b 0 < x.getD a 0 := by
  intro b
  induction b with
  | zero => intro a h; omega
  | succ m ih =>
      intro a hab hb hstep
      rcases Nat.lt_or_ge a m with h | h
      · have h1 := ih a h (by omega)
          (fun i h1 h2 => hstep i h1 (by omega))
        have h2 := hstep m (by omega) (by omega)
        linarith
      · have ha : a = m := by omega
        subst ha
        have h2 := hstep a (by omega) (by omega)
        linarith

/-- The sign vector scanned by `findextrema`: signs of the first
difference against level 0, exactly as `findcross (diffQ x) 0` builds it. -/
def signsOf (x : List ℚ) : List Int :=
  (diffQ x).map (fun a => signZ (a - 0))

theorem signsOf_length (x : List ℚ) : (signsOf x).length = x.length - 1 := by
  simp [signsOf, diffQ_length]

theorem signsOf_getD (x : List ℚ) (i : ℕ) (hi : i < (diffQ x).length) :
    (signsOf x).getD i 0 = signZ ((diffQ x).getD i 0) := by
  rw [List.getD_eq_getElem _ 0 (by simpa [signsOf] using hi)]
  simp only [signsOf, List.getElem_map, sub_zero]
  rw [List.getD_eq_getElem _ 0 hi]

theorem signsOf_ne_zero (x : List ℚ) (hx : List.Chain' (· ≠ ·) x) (i : ℕ)
    (hi : i < (signsOf x).length) : (signsOf x).getD i 0 ≠ 0 := by
  have hlen : i < (diffQ x).length := by
    rw [diffQ_length]
    rw [signsOf_length] at hi
    omega
  rw [signsOf_getD x i hlen]
  rw [Ne, signZ_eq_zero]
  have hi1 : i + 1 < x.length := by
    rw [diffQ_length] at hlen
    omega
  rw [diffQ_getD x i hi1]
  rw [sub_eq_zero]
  have hchain := List.chain'_iff_get.mp hx i (by omega)
  rw [List.getD_eq_getElem _ 0 (by omega), List.getD_eq_getElem _ 0 (by omega)]
  intro heq
  exact hchain (by simpa using heq.symm)

theorem signsOf_mem_ne_zero (x : List ℚ) (hx : List.Chain' (· ≠ ·) x) :
    ∀ s ∈ signsOf x, s ≠ 0 := by
  intro s hs
  obtain ⟨i, hi, rfl⟩ := List.mem_iff_getElem.mp hs
  rw [← List.getD_eq_getElem _ 0 hi]
  exact signsOf_ne_zero x hx i hi

theorem carried_signsOf (x : List ℚ) (hx : List.Chain' (· ≠ ·) x) :
    carried 0 (signsOf x) = signsOf x :=
  carried_all_nonzero 0 _ (signsOf_mem_ne_zero x hx)

theorem signsOf_range (x : List ℚ) (i : ℕ) :
    (signsOf x).getD i 0 = -1 ∨ (signsOf x).getD i 0 = 0 ∨
      (signsOf x).getD i 0 = 1 := by
  apply getD_range_of_mem
  intro s hs
  obtain ⟨a, _, rfl⟩ := List.mem_map.mp hs
  exact signZ_mem_range _

theorem raw_mem_nz (x : List ℚ) (hx : List.Chain' (· ≠ ·) x) (j : ℕ) :
    j ∈ findcrossRaw (signsOf x) ↔
      j < (signsOf x).length - 1 ∧
        (signsOf x).getD j 0 ≠ (signsOf x).getD (j + 1) 0 := by
  rw [findcrossRaw_mem, carried_signsOf x hx]

/-- Bridge from a positive sign at difference position `i` to a strictly
positive difference. -/
theorem sign_pos_step (x : List ℚ) (i : ℕ) (hi : i + 1 < x.length)
    (hs : (signsOf x).getD i 0 = 1) :
    0 < x.getD (i + 1) 0 - x.getD i 0 := by
  rw [signsOf_getD x i (by rw [diffQ_length]; omega)] at hs
  rw [← diffQ_getD x i hi]
  exact signZ_eq_one.mp hs

theorem sign_neg_step (x : List ℚ) (i : ℕ) (hi : i + 1 < x.length)
    (hs : (signsOf x).getD i 0 = -1) :
    x.getD (i + 1) 0 - x.getD i 0 < 0 := by
  rw [signsOf_getD x i (by rw [diffQ_length]; omega)] at hs
  rw [← diffQ_getD x i hi]
  exact signZ_eq_negone.mp hs

/-- Between (and after) the crossings of the difference-sign vector of a
series with pairwise-distinct consecutive samples, the series is strictly
monotone with alternating direction: walking the crossing list from any
suffix, the sample values at crossing+1 positions, closed by the last
sample, alternate strictly. -/
theorem walk_lemma (x : List ℚ) (hx : List.Chain' (· ≠ ·) x) :
    ∀ (rest pre : List ℕ) (j : ℕ),
      findcrossRaw (signsOf x) = pre ++ j :: rest →
      altVals (decide ((signsOf x).getD (j + 1) 0 = 1))
        (((j :: rest).map (fun t => x.getD (t + 1) 0)) ++
          [x.getD (x.length - 1) 0]) := by
  intro rest
  induction rest with
  | nil =>
      intro pre j hdec
      have hjm : j ∈ findcrossRaw (signsOf x) := by rw [hdec]; simp
      obtain ⟨hjlt, hjne⟩ := (raw_mem_nz x hx j).mp hjm
      have hm : (signsOf x).length = x.length - 1 := signsOf_length x
      have hconst : ∀ k, j + 1 ≤ k → k ≤ (signsOf x).length - 1 →
          (signsOf x).getD k 0 = (signsOf x).getD (j + 1) 0 := by
        intro k h1 h2
        refine const_run (fun i => (signsOf x).getD i 0) (j + 1) k ?_ h1
        intro i hi1 hi2
        by_contra hne
        have hmem : i ∈ findcrossRaw (signsOf x) := by
          rw [raw_mem_nz x hx]
          exact ⟨by omega, hne⟩
        exact sorted_last_gap (findcrossRaw_sorted _) hdec hmem (by omega)
      simp only [List.map_cons, List.map_nil, List.nil_append,
        List.cons_append]
      have hnz := signsOf_ne_zero x hx (j + 1) (by omega)
      rcases signsOf_range x (j + 1) with hs | hs | hs
      · rw [hs]
        norm_num [altVals]
        simp only [← List.getD_eq_getElem?_getD]
        apply mono_run_down x (x.length - 1) (j + 1) (by omega) (by omega)
        intro i hi1 hi2
        apply sign_neg_step x i (by omega)
        rw [hconst i hi1 (by omega), hs]
      · exact absurd hs hnz
      · rw [hs]
        norm_num [altVals]
        simp only [← List.getD_eq_getElem?_getD]
        apply mono_run_up x (x.length - 1) (j + 1) (by omega) (by omega)
        intro i hi1 hi2
        apply sign_pos_step x i (by omega)
        rw [hconst i hi1 (by omega), hs]
  | cons j' rest' ih =>
      intro pre j hdec
      have hdec' : findcrossRaw (signsOf x) = (pre ++ [j]) ++ j' :: rest' := by
        rw [hdec]
        simp
      have hih := ih (pre ++ [j]) j' hdec'
      have hjm : j ∈ findcrossRaw (signsOf x) := by rw [hdec]; simp
      have hj'm : j' ∈ findcrossRaw (signsOf x) := by rw [hdec]; simp
      obtain ⟨hjlt, hjne⟩ := (raw_mem_nz x hx j).mp hjm
      obtain ⟨hj'lt, hj'ne⟩ := (raw_mem_nz x hx j').mp hj'm
      have hm : (signsOf x).length = x.length - 1 := signsOf_length x
      have hjj' : j < j' := by
        have hsort := findcrossRaw_sorted (signsOf x)
        rw [hdec] at hsort
        have h1 := (List.pairwise_append.mp hsort).2.1
        exact (List.pairwise_cons.mp h1).1 j' (by simp)
      have hconst : ∀ k, j + 1 ≤ k → k ≤ j' →
          (signsOf x).getD k 0 = (signsOf x).getD (j + 1) 0 := by
        have h0 := @carried_const_between (signsOf x) pre rest' j j' hdec
        rw [carried_signsOf x hx] at h0
        exact h0
      have hflip : (signsOf x).getD (j' + 1) 0 =
          -(signsOf x).getD (j + 1) 0 := by
        have h1 := hconst j' (by omega) (le_refl j')
        have h2 := signsOf_range x (j' + 1)
        have h3 := signsOf_range x (j + 1)
        have h4 := signsOf_ne_zero x hx (j' + 1) (by omega)
        have h5 := signsOf_ne_zero x hx (j + 1) (by omega)
        rw [h1] at hj'ne
        omega
      simp only [List.map_cons, List.cons_append]
      refine ⟨?_, ?_⟩
      · have hnz := signsOf_ne_zero x hx (j + 1) (by omega)
        rcases signsOf_range x (j + 1) with hs | hs | hs
        · rw [hs]
          norm_num
          simp only [← List.getD_eq_getElem?_getD]
          apply mono_run_down x (j' + 1) (j + 1) (by omega) (by omega)
          intro i hi1 hi2
          apply sign_neg_step x i (by omega)
          rw [hconst i hi1 (by omega), hs]
        · exact absurd hs hnz
        · rw [hs]
          norm_num
          simp only [← List.getD_eq_getElem?_getD]
          apply mono_run_up x (j' + 1) (j + 1) (by omega) (by omega)
          intro i hi1 hi2
          apply sign_pos_step x i (by omega)
          rw [hconst i hi1 (by omega), hs]
      · have hb : (decide ((signsOf x).getD (j' + 1) 0 = 1)) =
            !(decide ((signsOf x).getD (j + 1) 0 = 1)) := by
          rw [hflip]
          have hnz := signsOf_ne_zero x hx (j + 1) (by omega)
          rcases signsOf_range x (j + 1) with hs | hs | hs
          · rw [hs]
            norm_num
          · exact absurd hs hnz
          · rw [hs]
            norm_num
        rw [hb] at hih
        simpa using hih

/-- Extension of the walk to the prepended first sample: from the start of
the series to the first crossing the series is strictly monotone, and the
direction keeps alternating afterwards. -/
theorem walk0_lemma (x : List ℚ) (hx : List.Chain' (· ≠ ·) x) (j0 : ℕ)
    (rest : List ℕ)
    (hdec : findcrossRaw (signsOf x) = j0 :: rest) :
    altVals (decide ((signsOf x).getD 0 0 = 1))
      (x.getD 0 0 :: (((j0 :: rest).map (fun t => x.getD (t + 1) 0)) ++
        [x.getD (x.length - 1) 0])) := by
  have hjm : j0 ∈ findcrossRaw (signsOf x) := by rw [hdec]; simp
  obtain ⟨hjlt, hjne⟩ := (raw_mem_nz x hx j0).mp hjm
  have hm : (signsOf x).length = x.length - 1 := signsOf_length x
  have hconst : ∀ k, k ≤ j0 →
      (signsOf x).getD k 0 = (signsOf x).getD 0 0 := by
    intro k hk
    refine const_run (fun i => (signsOf x).getD i 0) 0 k ?_ (by omega)
    intro i hi1 hi2
    by_contra hne
    have hmem : i ∈ findcrossRaw (signsOf x) := by
      rw [raw_mem_nz x hx]
      exact ⟨by omega, hne⟩
    exact sorted_head_gap (findcrossRaw_sorted _) hdec hmem (by omega)
  have hflip : (signsOf x).getD (j0 + 1) 0 = -(signsOf x).getD 0 0 := by
    have h1 := hconst j0 (le_refl j0)
    have h2 := signsOf_range x (j0 + 1)
    have h3 := signsOf_range x 0
    have h4 := signsOf_ne_zero x hx (j0 + 1) (by omega)
    have h5 := signsOf_ne_zero x hx 0 (by omega)
    rw [h1] at hjne
    omega
  simp only [List.map_cons, List.cons_append]
  refine ⟨?_, ?_⟩
  · have hnz := signsOf_ne_zero x hx 0 (by omega)
    rcases signsOf_range x 0 with hs | hs | hs
    · rw [hs]
      norm_num
      simp only [← List.getD_eq_getElem?_getD]
      apply mono_run_down x (j0 + 1) 0 (by omega) (by omega)
      intro i hi1 hi2
      apply sign_neg_step x i (by omega)
      rw [hconst i (by omega), hs]
    · exact absurd hs hnz
    · rw [hs]
      norm_num
      simp only [← List.getD_eq_getElem?_getD]
      apply mono_run_up x (j0 + 1) 0 (by omega) (by omega)
      intro i hi1 hi2
      apply sign_pos_step x i (by omega)
      rw [hconst i (by omega), hs]
  · have hw := walk_lemma x hx rest [] j0 hdec
    have hb : (decide ((signsOf x).getD (j0 + 1) 0 = 1)) =
        !(decide ((signsOf x).getD 0 0 = 1)) := by
      rw [hflip]
      have hnz := signsOf_ne_zero x hx 0 (by omega)
      rcases signsOf_range x 0 with hs | hs | hs
      · rw [hs]
        norm_num
      · exact absurd hs hnz
      · rw [hs]
        norm_num
    rw [hb] at hw
    simpa using hw

theorem findextrema_eq (x : List ℚ) :
    findextrema x = (findcrossRaw (signsOf x)).map (· + 1) := by
  have h : findcross (diffQ x) 0 none = .ok (findcrossRaw (signsOf x)) := by
    simp only [findcross]
    by_cases he : (findcrossRaw ((diffQ x).map (fun a => signZ (a - 0)))).isEmpty
      = true
    · rw [if_pos he]
      rfl
    · rw [if_neg he, if_pos (by simp)]
      rfl
  unfold findextrema
  rw [h]
  rfl

theorem findtp_zero (x : List ℚ) (kind : Option String)
    (hlen : ¬ (findextrema x).length < 2) :
    findtp x 0 kind = tpTrim x kind (tpBoundary x kind) := by
  simp only [findtp]
  rw [if_neg (by norm_num), if_neg hlen, if_neg (by norm_num)]

theorem map_dropLast_comm (f : ℕ → ℚ) :
    ∀ (l : List ℕ), (l.dropLast).map f = (l.map f).dropLast
  | [] => rfl
  | [_] => rfl
  | a :: b :: rest => by
      have h1 : (a :: b :: rest).dropLast = a :: (b :: rest).dropLast := rfl
      have h2 : ((a : ℕ) :: b :: rest).map f = f a :: (b :: rest).map f := rfl
      rw [h1, h2]
      have h3 : (f a :: (b :: rest).map f).dropLast =
          f a :: ((b :: rest).map f).dropLast := by
        have : (b :: rest).map f = f b :: rest.map f := rfl
        rw [this]
        rfl
      rw [h3, List.map_cons, map_dropLast_comm f (b :: rest)]

/-- C2 (amended): for a series whose consecutive samples are pairwise
distinct and rainflow threshold `h = 0`, with kind `None`, `'mw'`, `'Mw'` or
`'astm'`, whenever `findtp` returns an index sequence (not the `None`
sentinel) the values at the returned indices strictly alternate as local
minima and maxima.  (The original claim also covered series with equal
consecutive samples — where the boundary point prepended at a flat start
repeats a value — and thresholds `h > 0`, where the rainflow-filtered
subsequence need not alternate; both fail, see the counterexample.) -/
theorem C2_findtp_alternation_amended (x : List ℚ) (kind : Option String)
    (l : List ℕ)
    (hx : List.Chain' (· ≠ ·) x)
    (hkind : kind = none ∨ kind = some "mw" ∨ kind = some "Mw" ∨
      kind = some "astm")
    (hres : findtp x 0 kind = .ok (some l)) :
    altStrict (l.map (fun i => x.getD i 0)) = true := by
  by_cases hlen : (findextrema x).length < 2
  · have hnone : findtp x 0 kind = .ok none := by
      simp only [findtp]
      rw [if_neg (by norm_num), if_pos hlen]
    rw [hnone] at hres
    simp at hres
  · rw [findtp_zero x kind hlen] at hres
    have hE := findextrema_eq x
    have hrawlen : 1 ≤ (findcrossRaw (signsOf x)).length := by
      have hEl : (findextrema x).length = (findcrossRaw (signsOf x)).length
        := by rw [hE]; simp
      omega
    obtain ⟨j0, rest, hdec⟩ : ∃ j0 rest,
        findcrossRaw (signsOf x) = j0 :: rest := by
      match hh : findcrossRaw (signsOf x) with
      | [] => rw [hh] at hrawlen; simp at hrawlen
      | a :: r => exact ⟨a, r, rfl⟩
    have happ : altVals (decide ((signsOf x).getD (j0 + 1) 0 = 1))
        ((findextrema x ++ [x.length - 1]).map (fun i => x.getD i 0)) := by
      have hw := walk_lemma x hx rest [] j0 hdec
      rw [hE, hdec]
      simpa [List.map_map, Function.comp] using hw
    have hpre : altVals (decide ((signsOf x).getD 0 0 = 1))
        ((0 :: (findextrema x ++ [x.length - 1])).map (fun i => x.getD i 0))
        := by
      have hw := walk0_lemma x hx j0 rest hdec
      rw [hE, hdec]
      simpa [List.map_map, Function.comp] using hw
    have hboundary : ∃ up, altVals up
        ((tpBoundary x kind).map (fun i => x.getD i 0)) := by
      simp only [tpBoundary]
      split
      · split
        · exact ⟨_, hpre⟩
        · exact ⟨_, happ⟩
      · split
        · exact ⟨_, hpre⟩
        · exact ⟨_, happ⟩
    obtain ⟨up, hv⟩ := hboundary
    simp only [tpTrim] at hres
    by_cases hmw : kind = some "mw" ∨ kind = some "Mw"
    · rw [if_pos hmw] at hres
      by_cases h2 : (tpBoundary x kind).length < 2
      · rw [if_pos h2] at hres
        simp at hres
      · rw [if_neg h2] at hres
        simp only [Except.ok.injEq, Option.some.injEq] at hres
        subst hres
        split
        · have hv3 : altVals (!up)
              ((List.drop 1 (tpBoundary x kind)).map (fun i => x.getD i 0))
              := by
            rw [List.map_drop]
            exact altVals_tail up _ hv
          split
          · rw [map_dropLast_comm]
            exact altVals_altStrict _ _ (altVals_dropLast _ _ hv3)
          · exact altVals_altStrict _ _ hv3
        · split
          · rw [map_dropLast_comm]
            exact altVals_altStrict _ _ (altVals_dropLast _ _ hv)
          · exact altVals_altStrict _ _ hv
    · rw [if_neg hmw] at hres
      simp only [Except.ok.injEq, Option.some.injEq] at hres
      subst hres
      exact altVals_altStrict up _ hv

/-- C2 counterexample: the claim as stated fails twice.  With equal
consecutive samples (`x = [1, 1, 0, 1, 0]`, `h = 0`, kind `None`) the
prepended boundary index 0 repeats the first extremum's value, so the
returned indices' values `[1, 1, 0, 1, 0]` do not strictly alternate.  And
with pairwise-distinct consecutive samples but `h = 1 > 0`
(`x = [0, 1, 0, 2, 1, 2]`, kind `None`) the rainflow-filtered indices
`[0, 1, 3, 4]` carry the values `[0, 1, 2, 1]`, where the middle point 1 is
not a strict extremum. -/
theorem C2_flat_counterexample :
    (findtp [(1 : ℚ), 1, 0, 1, 0] 0 none = .ok (some [0, 1, 2, 3, 4]) ∧
      altStrict (([0, 1, 2, 3, 4] : List ℕ).map
        (fun i => ([(1 : ℚ), 1, 0, 1, 0]).getD i 0)) = false) ∧
    (findtp [(0 : ℚ), 1, 0, 2, 1, 2] 1 none = .ok (some [0, 1, 3, 4]) ∧
      altStrict (([0, 1, 3, 4] : List ℕ).map
        (fun i => ([(0 : ℚ), 1, 0, 2, 1, 2]).getD i 0)) = false) := by
  refine ⟨⟨?_, ?_⟩, ?_, ?_⟩
  · norm_num [findtp, tpBoundary, tpTrim, findextrema, findcross,
      findcrossRaw, carried, signZ, diffQ, Except.toOption,
      List.range, List.range.loop]
    try simp
    try norm_num
  · norm_num [altStrict]
  · norm_num [findtp, tpBoundary, tpTrim, findextrema, findcross,
      findcrossRaw, carried, signZ, diffQ, Except.toOption, findrfc,
      rfcCoreIndices, rfcScan, rfcStep, List.enum, List.enumFrom,
      List.insertionSort, List.orderedInsert, List.range, List.range.loop]
    try simp
    try norm_num
    try rfl
  · norm_num [altStrict]

/-- C2 witness: on `x = [0, 1, 0, 1]` (distinct consecutive samples, `h = 0`,
kind `None`) `findtp` returns `[0, 1, 2, 3]` and the values `[0, 1, 0, 1]`
strictly alternate. -/
theorem C2_findtp_alternation_witness :
    altStrict (([0, 1, 2, 3] : List ℕ).map
      (fun i => ([(0 : ℚ), 1, 0, 1]).getD i 0)) = true :=
  C2_findtp_alternation_amended [0, 1, 0, 1] none [0, 1, 2, 3]
    (by norm_num [List.chain'_cons])
    (Or.inl rfl)
    (by
      norm_num [findtp, tpBoundary, tpTrim, findextrema, findcross,
        findcrossRaw, carried, signZ, diffQ, Except.toOption,
        List.range, List.range.loop]
      try simp
      try norm_num)

end Wafo

